import Mathlib

/-!
Verification of the three-tier memory subsystem of `evo`
(`src/evo/src/evo/memory/__init__.py`), shallowly embedded in Lean.

The embedding models the fallback (non-ChromaDB) backend of
`MemorySystem.EpisodicMemory` together with `WorkingMemory` and
`SemanticMemory`.  The ChromaDB branch calls into an external vector
database and is out of scope (the spec treats it as an opaque external
service).

Python-level building blocks that the memory module uses are embedded as
well:

* `json.dumps(_, sort_keys=True)` over JSON-serializable values
  (`dumpVal` below); values a record may hold are modelled by `JValue`,
  with `JValue.opaque2` standing for a Python object the serializer
  rejects with `TypeError` (floats are omitted: no claim involves them);
* the built-in `hash` on `str` (`pyHash` below): CPython's 64-bit salted
  SipHash-1-3 of the UTF-8 bytes, here taken with the fixed key that
  `PYTHONHASHSEED=0` selects.  The claims depend only on `pyHash` being a
  fixed function of the string with a 64-bit signed range, never on the
  internals of the permutation;
* `str` on `int` (`intStr` below): standard decimal notation with a
  leading minus sign for negatives;
* insertion-ordered `dict` (`dictInsert` / `dictGet` on association
  lists: assigning to a present key overwrites in place, a fresh key is
  appended at the end).
-/

/-- A JSON-serializable Python value as stored in memory records.
`opaque2` stands for a Python object that `json.dumps` rejects
(e.g. a set or a custom class instance); the tag only distinguishes
such objects from one another. -/
inductive JValue : Type where
  | null : JValue
  | bool : Bool → JValue
  | num : Int → JValue
  | str : String → JValue
  | arr : List JValue → JValue
  | obj : List (String × JValue) → JValue
  | opaque2 : Nat → JValue

/-- A record (`experience`): a Python dict from string keys to values,
in insertion order. -/
abbrev Record := List (String × JValue)

/-- An episodic-memory fallback state: the insertion-ordered dict
`self._experiences` mapping experience id to experience. -/
abbrev EpState := List (String × Record)

/-- Python dict lookup `d.get(k)`: first (and only) binding of the key. -/
def dictGet {α : Type} : List (String × α) → String → Option α
  | [], _ => none
  | (k', v') :: t, k => if k' = k then some v' else dictGet t k

/-- Python dict assignment `d[k] = v`: overwrite in place if the key is
present, append otherwise. -/
def dictInsert {α : Type} : List (String × α) → String → α → List (String × α)
  | [], k, v => [(k, v)]
  | (k', v') :: t, k, v => if k' = k then (k, v) :: t else (k', v') :: dictInsert t k v

/-- Keys of an association list. -/
def keysOf {α : Type} (l : List (String × α)) : List String := l.map Prod.fst

/-- Python's `str` on a digit below ten. -/
def digitChar (d : Nat) : Char :=
  match d with
  | 0 => '0' | 1 => '1' | 2 => '2' | 3 => '3' | 4 => '4'
  | 5 => '5' | 6 => '6' | 7 => '7' | 8 => '8' | _ => '9'

/-- Little-endian decimal digits of `n`, structurally recursive on a
fuel bound so that it reduces inside the kernel (`natDigits_eq_digits`
below identifies it with `Nat.digits 10`). -/
def natDigits : Nat → Nat → List Nat
  | _, 0 => []
  | 0, _ + 1 => []
  | f + 1, n + 1 => (n + 1) % 10 :: natDigits f ((n + 1) / 10)

/-- Python's `str` on a natural number: standard decimal notation. -/
def natStr (n : Nat) : String :=
  if n = 0 then "0" else String.mk ((natDigits n n).reverse.map digitChar)

/-- Python's `str` on an `int`: decimal, minus sign for negatives. -/
def intStr : Int → String
  | Int.ofNat m => natStr m
  | Int.negSucc m => "-" ++ natStr (m + 1)

/-- Lowercase hex digit, as in Python's `"%04x"` formatting. -/
def hexDigit (d : Nat) : Char :=
  match d with
  | 0 => '0' | 1 => '1' | 2 => '2' | 3 => '3' | 4 => '4'
  | 5 => '5' | 6 => '6' | 7 => '7' | 8 => '8' | 9 => '9'
  | 10 => 'a' | 11 => 'b' | 12 => 'c' | 13 => 'd' | 14 => 'e' | _ => 'f'

/-- Four-digit lowercase hex of a code unit, as in `\uXXXX` escapes. -/
def hex4 (n : Nat) : String :=
  String.mk [hexDigit (n / 4096 % 16), hexDigit (n / 256 % 16),
             hexDigit (n / 16 % 16), hexDigit (n % 16)]

/-- `json.dumps` escaping of one character with `ensure_ascii=True`
(CPython `json.encoder.py_encode_basestring_ascii`): backslash, quote
and the named control escapes, `\uXXXX` (with surrogate pairs above
the BMP) for everything outside printable ASCII. -/
def escChar (c : Char) : String :=
  if c = '\\' then "\\\\"
  else if c = '\"' then "\\\""
  else if c = '\x08' then "\\b"
  else if c = '\x0c' then "\\f"
  else if c = '\n' then "\\n"
  else if c = '\r' then "\\r"
  else if c = '\t' then "\\t"
  else if 0x20 ≤ c.toNat ∧ c.toNat ≤ 0x7e then String.mk [c]
  else if c.toNat < 0x10000 then "\\u" ++ hex4 c.toNat
  else
    let v := c.toNat - 0x10000
    "\\u" ++ hex4 (0xd800 + v / 1024) ++ "\\u" ++ hex4 (0xdc00 + v % 1024)

/-- `json.dumps` rendering of a string literal: quotes around the
escaped characters. -/
def escString (s : String) : String :=
  "\"" ++ String.join (s.data.map escChar) ++ "\""

/-- Key order used by `sort_keys=True`: compare the keys of two entries
(Python compares `str` by code points, as Lean's `String` order does). -/
def keyLe {α : Type} (a b : String × α) : Prop := a.1 ≤ b.1

instance {α : Type} : DecidableRel (keyLe (α := α)) :=
  fun a b => inferInstanceAs (Decidable (a.1 ≤ b.1))

instance {α : Type} : IsTotal (String × α) keyLe := ⟨fun a b => le_total a.1 b.1⟩

instance {α : Type} : IsTrans (String × α) keyLe := ⟨fun _ _ _ h h' => le_trans h h'⟩

/-- Sorting the entries of a dict by key, as `sorted(d.items())` does
when all keys are strings (comparisons never reach the values because
dict keys are unique). -/
def keySort {α : Type} (l : List (String × α)) : List (String × α) :=
  List.insertionSort keyLe l

/-- Comma-space separator of `json.dumps`' default one-line layout. -/
def joinSep (parts : List String) : String := String.intercalate ", " parts

mutual
/-- `json.dumps(v, sort_keys=True)` on one value: `none` models the
`TypeError` raised on a non-serializable object.  An object's fields
are rendered first and the rendered fields are then sorted by the
original key, which agrees with sorting the items before rendering
(rendering is per-item). -/
def dumpVal : JValue → Option String
  | .null => some "null"
  | .bool true => some "true"
  | .bool false => some "false"
  | .num n => some (intStr n)
  | .str s => some (escString s)
  | .arr xs =>
      (dumpElems xs).map (fun ps => "[" ++ joinSep ps ++ "]")
  | .obj fs =>
      (dumpFields fs).map
        (fun ps => "\x7b" ++ joinSep ((keySort ps).map Prod.snd) ++ "\x7d")
  | .opaque2 _ => none

/-- Render the elements of a JSON array in order. -/
def dumpElems : List JValue → Option (List String)
  | [] => some []
  | v :: vs => do
      let s ← dumpVal v
      let rest ← dumpElems vs
      pure (s :: rest)

/-- Render the fields of a JSON object in the given order, keeping each
original key alongside its rendered `"key": value` text for sorting. -/
def dumpFields : List (String × JValue) → Option (List (String × String))
  | [] => some []
  | (k, v) :: fs => do
      let s ← dumpVal v
      let rest ← dumpFields fs
      pure ((k, escString k ++ ": " ++ s) :: rest)
end

/-- `json.dumps(experience, sort_keys=True)` on a record, as
`store_experience` calls it. -/
def jsonDumps (exp : Record) : Option String := dumpVal (.obj exp)

/-- Word size of CPython's `Py_hash_t` on a 64-bit build. -/
def W64 : Nat := 2 ^ 64

/-- Addition modulo 2^64. -/
def wadd (a b : Nat) : Nat := (a + b) % W64

/-- Left rotation of a 64-bit word by `k` bits. -/
def rotl (a k : Nat) : Nat := ((a <<< k) ||| (a >>> (64 - k))) % W64

/-- The SipHash state: four 64-bit words. -/
abbrev SipState := Nat × Nat × Nat × Nat

/-- One SipHash round. -/
def sipRound : SipState → SipState := fun (v0, v1, v2, v3) =>
  let v0 := wadd v0 v1
  let v1 := rotl v1 13
  let v1 := v1 ^^^ v0
  let v0 := rotl v0 32
  let v2 := wadd v2 v3
  let v3 := rotl v3 16
  let v3 := v3 ^^^ v2
  let v0 := wadd v0 v3
  let v3 := rotl v3 21
  let v3 := v3 ^^^ v0
  let v2 := wadd v2 v1
  let v1 := rotl v1 17
  let v1 := v1 ^^^ v2
  let v2 := rotl v2 32
  (v0, v1, v2, v3)

/-- Absorb one message word with a single compression round
(SipHash-1-3 uses one round per block). -/
def sipBlock (st : SipState) (m : Nat) : SipState :=
  let (v0, v1, v2, v3) := st
  let (v0, v1, v2, v3) := sipRound (v0, v1, v2, v3 ^^^ m)
  (v0 ^^^ m, v1, v2, v3)

/-- A little-endian 64-bit word from up to eight bytes
(first byte least significant). -/
def leWord (bs : List Nat) : Nat := bs.foldr (fun b acc => b + 256 * acc) 0

/-- Consume the message eight bytes at a time, then the final padded
block whose top byte is the total length mod 256, then finalize with
`v2 ^= 0xff` and three rounds, returning `v0 ^ v1 ^ v2 ^ v3`. -/
def sipBytes (st : SipState) (len : Nat) : List Nat → Nat
  | b0 :: b1 :: b2 :: b3 :: b4 :: b5 :: b6 :: b7 :: rest =>
      sipBytes (sipBlock st (leWord [b0, b1, b2, b3, b4, b5, b6, b7])) len rest
  | rest =>
      let last := leWord rest + (len % 256) * 2 ^ 56
      let (v0, v1, v2, v3) := sipBlock st last
      let (v0, v1, v2, v3) := sipRound (sipRound (sipRound (v0, v1, v2 ^^^ 0xff, v3)))
      v0 ^^^ v1 ^^^ v2 ^^^ v3

/-- SipHash-1-3 of a byte string with key words `k0`, `k1`. -/
def siphash13 (k0 k1 : Nat) (bs : List Nat) : Nat :=
  sipBytes (k0 ^^^ 0x736f6d6570736575, k1 ^^^ 0x646f72616e646f6d,
            k0 ^^^ 0x6c7967656e657261, k1 ^^^ 0x7465646279746573)
    bs.length bs

/-- Code points of a string, which coincide with its UTF-8 bytes on the
ASCII strings `json.dumps(..., sort_keys=True)` emits
(`ensure_ascii=True` escapes everything outside printable ASCII). -/
def strBytes (s : String) : List Nat := s.data.map Char.toNat

/-- CPython's `hash` on `str` as a 64-bit word, with the
`PYTHONHASHSEED=0` key (`k0 = k1 = 0`): SipHash-1-3 of the bytes.  The
trailing reduction modulo `W64` records the 64-bit range of the result
(the claims depend on the range and on `pyHash` being a fixed function
of the string, not on the permutation's internals). -/
def pyHashW (s : String) : Nat := siphash13 0 0 (strBytes s) % W64

/-- CPython's `hash` on `str` as the interpreter returns it: the 64-bit
word read as a signed integer, `-1` replaced by `-2`, and the empty
string hashing to `0`. -/
def pyHash (s : String) : Int :=
  if s.data = [] then 0
  else
    let h := pyHashW s
    let v : Int := if h < 2 ^ 63 then (h : Int) else (h : Int) - 2 ^ 64
    if v = -1 then -2 else v

/-- The experience id `str(hash(json.dumps(experience, sort_keys=True)))`
that `store_experience` computes, when serialization succeeds. -/
def recordId (exp : Record) : Option String :=
  (jsonDumps exp).map (fun s => intStr (pyHash s))

/-- `EpisodicMemory.store_experience` on the fallback backend: serialize
(raising, i.e. `none`, on a non-serializable record, with the state
untouched), derive the id, store under the id in the experiences dict,
return the id. -/
def store_experience (st : EpState) (exp : Record) : Option String × EpState :=
  match jsonDumps exp with
  | none => (none, st)
  | some s =>
      let i := intStr (pyHash s)
      (some i, dictInsert st i exp)

/-- `EpisodicMemory.retrieve_similar` on the fallback backend: the first
`k` stored experiences in insertion order (`list(d.values())[:k]`); the
query text is ignored and the state is returned unchanged (the method
body never mutates it). -/
def retrieve_similar (st : EpState) (_query : String) (k : Nat) :
    List Record × EpState :=
  ((st.map Prod.snd).take k, st)

/-- `EpisodicMemory.cleanup` on the fallback backend:
`self._experiences.clear()`. -/
def epCleanup (_st : EpState) : EpState := []

/-- The state of a `MemorySystem`: the three tiers.  `working` is
`WorkingMemory.context`, `episodic` the fallback experience dict,
`semantic` is `SemanticMemory.knowledge`. -/
structure MemState : Type where
  working : List (String × JValue)
  episodic : EpState
  semantic : List (String × JValue)

/-- `WorkingMemory.store`. -/
def wmStore (st : MemState) (k : String) (v : JValue) : MemState :=
  { st with working := dictInsert st.working k v }

/-- `WorkingMemory.retrieve`: `self.context.get(key)`. -/
def wmRetrieve (st : MemState) (k : String) : Option JValue :=
  dictGet st.working k

/-- `WorkingMemory.clear`. -/
def wmClear (st : MemState) : MemState := { st with working := [] }

/-- `SemanticMemory.add_fact`: upsert into the knowledge dict. -/
def addFact (st : MemState) (k : String) (v : JValue) : MemState :=
  { st with semantic := dictInsert st.semantic k v }

/-- `SemanticMemory.retrieve_fact`: `self.knowledge.get(key)`. -/
def retrieveFact (st : MemState) (k : String) : Option JValue :=
  dictGet st.semantic k

/-- `MemorySystem.cleanup`: awaits `episodic.cleanup()` and touches
nothing else. -/
def msCleanup (st : MemState) : MemState :=
  { st with episodic := epCleanup st.episodic }

/-! ### Dictionary lemmas -/

theorem dictGet_insert_same {α : Type} (l : List (String × α)) (k : String) (v : α) :
    dictGet (dictInsert l k v) k = some v := by
  induction l with
  | nil => simp [dictInsert, dictGet]
  | cons p t ih =>
      obtain ⟨k', v'⟩ := p
      by_cases h : k' = k
      · simp [dictInsert, dictGet, h]
      · simp [dictInsert, dictGet, h, ih]

theorem dictGet_insert_other {α : Type} (l : List (String × α)) (k q : String) (v : α)
    (h : q ≠ k) : dictGet (dictInsert l k v) q = dictGet l q := by
  have hkq : ¬ k = q := fun he => h he.symm
  induction l with
  | nil => simp [dictInsert, dictGet, hkq]
  | cons p t ih =>
      obtain ⟨k', v'⟩ := p
      by_cases hk : k' = k
      · subst hk
        simp [dictInsert, dictGet, hkq]
      · by_cases hq : k' = q
        · simp [dictInsert, dictGet, hk, hq, hkq, h]
        · simp [dictInsert, dictGet, hk, hq, ih]

theorem dictGet_eq_none_of_not_mem {α : Type} (l : List (String × α)) (k : String)
    (h : k ∉ keysOf l) : dictGet l k = none := by
  induction l with
  | nil => simp [dictGet]
  | cons p t ih =>
      obtain ⟨k', v'⟩ := p
      simp only [keysOf, List.map_cons, List.mem_cons] at h
      push_neg at h
      have hk : ¬ k' = k := fun he => h.1 he.symm
      simp [dictGet, hk, ih (by simpa [keysOf] using h.2)]

theorem dictInsert_idem {α : Type} (l : List (String × α)) (k : String) (v : α) :
    dictInsert (dictInsert l k v) k v = dictInsert l k v := by
  induction l with
  | nil => simp [dictInsert]
  | cons p t ih =>
      obtain ⟨k', v'⟩ := p
      by_cases h : k' = k
      · simp [dictInsert, h]
      · simp [dictInsert, h, ih]

theorem mem_values_dictInsert {α : Type} (l : List (String × α)) (k : String) (v : α) :
    v ∈ (dictInsert l k v).map Prod.snd := by
  induction l with
  | nil => simp [dictInsert]
  | cons p t ih =>
      obtain ⟨k', v'⟩ := p
      by_cases h : k' = k
      · simp [dictInsert, h]
      · simp only [dictInsert, if_neg h, List.map_cons, List.mem_cons]
        exact Or.inr ih

theorem count_keys_dictInsert {α : Type} (l : List (String × α)) (k : String) (v : α)
    (h : (keysOf l).Nodup) : (keysOf (dictInsert l k v)).count k = 1 := by
  induction l with
  | nil => simp [dictInsert, keysOf]
  | cons p t ih =>
      obtain ⟨k', v'⟩ := p
      simp only [keysOf, List.map_cons, List.nodup_cons] at h
      by_cases hk : k' = k
      · subst hk
        simp only [dictInsert, if_pos rfl, keysOf, List.map_cons, List.count_cons_self]
        have : (keysOf t).count k' = 0 := by
          simpa [keysOf, List.count_eq_zero] using h.1
        simpa [keysOf] using this
      · simp only [dictInsert, if_neg hk, keysOf, List.map_cons]
        rw [List.count_cons_of_ne (by simpa using fun he => hk he.symm)]
        exact ih h.2

/-! ### Claim C5: facade cleanup clears only episodic state -/

/-- C5: `MemorySystem.cleanup` delegates to `episodic.cleanup` only.
The working and semantic maps are unchanged (so every previously stored
working key and fact still retrieves to the same value), while the
episodic store is emptied. -/
theorem cleanup_clears_only_episodic (st : MemState) :
    (msCleanup st).working = st.working ∧
    (msCleanup st).semantic = st.semantic ∧
    (msCleanup st).episodic = [] ∧
    (∀ k, wmRetrieve (msCleanup st) k = wmRetrieve st k) ∧
    (∀ k, retrieveFact (msCleanup st) k = retrieveFact st k) :=
  ⟨rfl, rfl, rfl, fun _ => rfl, fun _ => rfl⟩

/-! ### Claim C6: absent-key lookups return `none` and do not mutate -/

/-- C6: `WorkingMemory.retrieve` and `SemanticMemory.retrieve_fact` on a
key absent from the respective store return `none` (no exception is
modelled: both are total functions), and being `dict.get` reads they
leave the state unchanged. -/
theorem retrieve_absent_returns_none (st : MemState) (k : String)
    (hw : k ∉ keysOf st.working) (hs : k ∉ keysOf st.semantic) :
    wmRetrieve st k = none ∧ retrieveFact st k = none :=
  ⟨dictGet_eq_none_of_not_mem _ _ hw, dictGet_eq_none_of_not_mem _ _ hs⟩

/-- C6 witness at a concrete state and key. -/
theorem retrieve_absent_returns_none_witness :
    "missing" ∉ keysOf ([("k", JValue.num 1)] : List (String × JValue)) ∧
    wmRetrieve ⟨[("k", JValue.num 1)], [], []⟩ "missing" = none ∧
    retrieveFact ⟨[("k", JValue.num 1)], [], []⟩ "missing" = none := by
  refine ⟨by decide, ?_, ?_⟩
  · exact (retrieve_absent_returns_none ⟨[("k", JValue.num 1)], [], []⟩ "missing"
      (by decide) (by decide)).1
  · exact (retrieve_absent_returns_none ⟨[("k", JValue.num 1)], [], []⟩ "missing"
      (by decide) (by decide)).2

/-! ### Claim C7: `add_fact` is last-write-wins with no other key touched -/

/-- C7: after `add_fact x v1` then `add_fact x v2`, `retrieve_fact x`
returns `v2`, and every other key retrieves exactly what it did before
the two calls. -/
theorem addFact_last_write_wins (st : MemState) (x : String) (v1 v2 : JValue) :
    retrieveFact (addFact (addFact st x v1) x v2) x = some v2 ∧
    ∀ y, y ≠ x → retrieveFact (addFact (addFact st x v1) x v2) y = retrieveFact st y := by
  constructor
  · exact dictGet_insert_same _ _ _
  · intro y hy
    simp only [retrieveFact, addFact]
    rw [dictGet_insert_other _ _ _ _ hy, dictGet_insert_other _ _ _ _ hy]

/-- C7 witness: overwrite observed at concrete keys and values. -/
theorem addFact_last_write_wins_witness :
    retrieveFact (addFact (addFact ⟨[], [], []⟩ "x" (JValue.num 1)) "x" (JValue.num 2)) "x"
      = some (JValue.num 2) ∧
    retrieveFact (addFact (addFact ⟨[], [], []⟩ "x" (JValue.num 1)) "x" (JValue.num 2)) "y"
      = retrieveFact ⟨[], [], []⟩ "y" :=
  ⟨(addFact_last_write_wins ⟨[], [], []⟩ "x" (JValue.num 1) (JValue.num 2)).1,
   (addFact_last_write_wins ⟨[], [], []⟩ "x" (JValue.num 1) (JValue.num 2)).2 "y"
     (by decide)⟩

/-! ### Claim C8: a non-serializable record fails the call and leaves the
store untouched -/

/-- C8: when the record cannot be canonically serialized
(`json.dumps` raises, modelled by `jsonDumps exp = none`),
`store_experience` returns the error outcome and the experiences dict is
exactly what it was: nothing is stored, modified or removed. -/
theorem store_experience_malformed_leaves_state (st : EpState) (exp : Record)
    (h : jsonDumps exp = none) : store_experience st exp = (none, st) := by
  simp [store_experience, h]

/-- C8 witness: a record holding a non-serializable object. -/
theorem store_experience_malformed_leaves_state_witness :
    jsonDumps [("k", JValue.opaque2 0)] = none ∧
    store_experience [("i", [("a", JValue.null)])] [("k", JValue.opaque2 0)] =
      (none, [("i", [("a", JValue.null)])]) := by
  have h : jsonDumps [("k", JValue.opaque2 0)] = none := by
    simp [jsonDumps, dumpVal, dumpFields]
  exact ⟨h, store_experience_malformed_leaves_state _ _ h⟩

/-! ### Claim C10: the fallback retrieval ignores the query and the state -/

/-- C10: on the fallback backend `retrieve_similar` depends only on the
stored state and `k`: any two query strings give the same result, that
result is the first `k` stored records in insertion order, and the state
is not modified. -/
theorem retrieve_similar_query_independent (st : EpState) (k : Nat) (q1 q2 : String) :
    retrieve_similar st q1 k = retrieve_similar st q2 k ∧
    (retrieve_similar st q1 k).1 = (st.map Prod.snd).take k ∧
    (retrieve_similar st q1 k).2 = st :=
  ⟨rfl, rfl, rfl⟩

/-! ### Claim C4: reuse after cleanup -/

/-- C4: `cleanup()` then `store_experience(r)` then
`retrieve_similar(_, k=1)` returns exactly the one record `r`: cleanup
empties the store and does not poison it for later writes. -/
theorem cleanup_then_store_then_retrieve (st : EpState) (r : Record) (i : String)
    (st2 : EpState) (q : String)
    (h : store_experience (epCleanup st) r = (some i, st2)) :
    (retrieve_similar st2 q 1).1 = [r] := by
  unfold store_experience epCleanup at h
  cases hd : jsonDumps r with
  | none => rw [hd] at h; simp at h
  | some s =>
      rw [hd] at h
      simp only [Prod.mk.injEq, Option.some.injEq] at h
      obtain ⟨_, h2⟩ := h
      rw [← h2]
      simp [retrieve_similar, dictInsert]

/-- C4 witness at a concrete record and nonempty initial store. -/
theorem cleanup_then_store_then_retrieve_witness :
    store_experience (epCleanup [("old", [("x", JValue.null)])]) [("a", JValue.num 3)] =
      ((store_experience [] [("a", JValue.num 3)]).1,
       (store_experience [] [("a", JValue.num 3)]).2) ∧
    (retrieve_similar (store_experience [] [("a", JValue.num 3)]).2 "anything" 1).1 =
      [[("a", JValue.num 3)]] := by
  refine ⟨rfl, ?_⟩
  exact cleanup_then_store_then_retrieve [("old", [("x", JValue.null)])]
    [("a", JValue.num 3)] (store_experience [] [("a", JValue.num 3)]).1.get!
    (store_experience [] [("a", JValue.num 3)]).2 "anything" rfl

/-! ### Claim C9: fallback deduplicates by content-derived id -/

/-- C9: on the fallback backend a second `store_experience` of the same
record returns the same id and leaves the state exactly as after the
first call, and (when the store's keys were distinct, as every reachable
dict state's are) the store holds exactly one entry under that id. -/
theorem store_experience_idempotent (st : EpState) (r : Record) (i : String)
    (st' : EpState) (h : store_experience st r = (some i, st')) :
    store_experience st' r = (some i, st') ∧
    ((keysOf st).Nodup → (keysOf st').count i = 1) := by
  unfold store_experience at h ⊢
  cases hd : jsonDumps r with
  | none => rw [hd] at h; simp at h
  | some s =>
      rw [hd] at h
      simp only [Prod.mk.injEq, Option.some.injEq] at h
      obtain ⟨h1, h2⟩ := h
      subst h1
      subst h2
      refine ⟨by simp [dictInsert_idem], fun hnd => ?_⟩
      exact count_keys_dictInsert st _ r hnd

/-- C9 witness: storing the same record twice from the empty store. -/
theorem store_experience_idempotent_witness :
    store_experience (store_experience [] [("a", JValue.num 3)]).2 [("a", JValue.num 3)] =
      ((store_experience [] [("a", JValue.num 3)]).1,
       (store_experience [] [("a", JValue.num 3)]).2) ∧
    (keysOf (store_experience [] [("a", JValue.num 3)]).2).count
      (store_experience [] [("a", JValue.num 3)]).1.get! = 1 := by
  have h := store_experience_idempotent [] [("a", JValue.num 3)]
    (store_experience [] [("a", JValue.num 3)]).1.get!
    (store_experience [] [("a", JValue.num 3)]).2 rfl
  exact ⟨h.1, h.2 (by decide)⟩

/-! ### Claim C3: round-trip after store (amended) -/

/-- C3 counterexample to the unamended claim: with one experience already
stored, storing a second distinct experience and querying with `k = 1`
returns only the first experience; the just-stored record is absent even
though it was stored successfully. -/
theorem store_roundtrip_fails_with_small_k :
    ((store_experience (store_experience [] [("a", JValue.str "0")]).2
        [("a", JValue.str "1")]).1).isSome = true ∧
    [("a", JValue.str "1")] ∉
      (retrieve_similar
        (store_experience (store_experience [] [("a", JValue.str "0")]).2
          [("a", JValue.str "1")]).2 "a 1" 1).1 := by
  refine ⟨rfl, ?_⟩
  have hret : (retrieve_similar
      (store_experience (store_experience [] [("a", JValue.str "0")]).2
        [("a", JValue.str "1")]).2 "a 1" 1).1 = [[("a", JValue.str "0")]] := by rfl
  rw [hret]
  intro hmem
  have he : [("a", JValue.str "1")] = [("a", JValue.str "0")] :=
    List.mem_singleton.mp hmem
  have h10 : "1" = "0" := congrArg (fun l => match l with
    | (_, JValue.str s) :: _ => s
    | _ => "") he
  exact absurd h10 (by decide)

/-- C3 amended: the round-trip holds on the fallback backend whenever `k`
is at least the number of stored entries after the store (in particular
for any `k ≥ 1` when storing into an emptied store); the stored record is
then among the returned records. -/
theorem store_then_retrieve_contains (st : EpState) (r : Record) (i : String)
    (st' : EpState) (q : String) (k : Nat)
    (h : store_experience st r = (some i, st')) (hk : st'.length ≤ k) :
    r ∈ (retrieve_similar st' q k).1 := by
  unfold store_experience at h
  cases hd : jsonDumps r with
  | none => rw [hd] at h; simp at h
  | some s =>
      rw [hd] at h
      simp only [Prod.mk.injEq, Option.some.injEq] at h
      obtain ⟨_, h2⟩ := h
      subst h2
      simp only [retrieve_similar]
      rw [List.take_of_length_le (by simpa using hk)]
      exact mem_values_dictInsert st _ r

/-- C3 amended witness: empty prior store, `k = 1`. -/
theorem store_then_retrieve_contains_witness :
    [("a", JValue.num 3)] ∈
      (retrieve_similar (store_experience [] [("a", JValue.num 3)]).2 "anything" 1).1 :=
  store_then_retrieve_contains [] [("a", JValue.num 3)]
    (store_experience [] [("a", JValue.num 3)]).1.get!
    (store_experience [] [("a", JValue.num 3)]).2 "anything" 1 rfl (by decide)

/-! ### Canonicalization: sorting by key is insertion-order independent -/

theorem keySort_perm {α : Type} (l : List (String × α)) : (keySort l).Perm l :=
  List.perm_insertionSort _ _

theorem keySort_sorted {α : Type} (l : List (String × α)) :
    List.Sorted keyLe (keySort l) :=
  List.sorted_insertionSort _ _

theorem eq_of_perm_of_sorted_of_nodupKeys {α : Type} :
    ∀ {l1 l2 : List (String × α)}, l1.Perm l2 → List.Sorted keyLe l1 →
      List.Sorted keyLe l2 → (l1.map Prod.fst).Nodup → l1 = l2 := by
  intro l1
  induction l1 with
  | nil =>
      intro l2 hp _ _ _
      exact (hp.symm.eq_nil).symm
  | cons a t1 ih =>
      intro l2 hp hs1 hs2 hnd
      cases l2 with
      | nil => exact absurd hp.eq_nil (by simp)
      | cons b t2 =>
          have hab : a = b := by
            have ha2 : a ∈ b :: t2 := hp.subset (List.mem_cons_self a t1)
            have hb1 : b ∈ a :: t1 := hp.symm.subset (List.mem_cons_self b t2)
            rcases List.mem_cons.mp ha2 with h | ha2t
            · exact h
            rcases List.mem_cons.mp hb1 with h | hb1t
            · exact h.symm
            have h1 : keyLe a b := (List.sorted_cons.mp hs1).1 b hb1t
            have h2 : keyLe b a := (List.sorted_cons.mp hs2).1 a ha2t
            have hk : a.1 = b.1 := le_antisymm h1 h2
            have hmem : a.1 ∈ t1.map Prod.fst := by
              rw [hk]; exact List.mem_map_of_mem Prod.fst hb1t
            simp only [List.map_cons, List.nodup_cons] at hnd
            exact absurd hmem hnd.1
          subst hab
          have ht : t1.Perm t2 := hp.cons_inv
          have hrec := ih ht (List.sorted_cons.mp hs1).2 (List.sorted_cons.mp hs2).2
            (by simp only [List.map_cons, List.nodup_cons] at hnd; exact hnd.2)
          rw [hrec]

theorem keySort_congr {α : Type} {l1 l2 : List (String × α)} (hp : l1.Perm l2)
    (hnd : (l1.map Prod.fst).Nodup) : keySort l1 = keySort l2 :=
  eq_of_perm_of_sorted_of_nodupKeys
    ((keySort_perm l1).trans (hp.trans (keySort_perm l2).symm))
    (keySort_sorted l1) (keySort_sorted l2)
    (((keySort_perm l1).map Prod.fst).nodup_iff.mpr hnd)

/-! ### Serialization respects key permutation -/

theorem dumpFields_keys : ∀ {fs : List (String × JValue)} {l : List (String × String)},
    dumpFields fs = some l → l.map Prod.fst = fs.map Prod.fst := by
  intro fs
  induction fs with
  | nil =>
      intro l h
      simp only [dumpFields, Option.some.injEq] at h
      subst h
      rfl
  | cons p t ih =>
      obtain ⟨k, v⟩ := p
      intro l h
      cases hv : dumpVal v with
      | none => simp [dumpFields, hv] at h
      | some s =>
          cases hf : dumpFields t with
          | none => simp [dumpFields, hv, hf] at h
          | some rest =>
              simp only [dumpFields, hv, hf, Option.bind_eq_bind, Option.some_bind,
                Option.pure_def, Option.some.injEq] at h
              subst h
              simp [ih hf]

theorem dumpFields_perm : ∀ {fs1 fs2 : List (String × JValue)}, fs1.Perm fs2 →
    (dumpFields fs1 = none ∧ dumpFields fs2 = none) ∨
    (∃ l1 l2, dumpFields fs1 = some l1 ∧ dumpFields fs2 = some l2 ∧ l1.Perm l2) := by
  intro fs1 fs2 hp
  induction hp with
  | nil => exact Or.inr ⟨[], [], by simp [dumpFields], by simp [dumpFields], List.Perm.nil⟩
  | cons x hp ih =>
      obtain ⟨k, v⟩ := x
      cases hv : dumpVal v with
      | none => exact Or.inl ⟨by simp [dumpFields, hv], by simp [dumpFields, hv]⟩
      | some s =>
          rcases ih with ⟨h1, h2⟩ | ⟨l1, l2, h1, h2, hl⟩
          · exact Or.inl ⟨by simp [dumpFields, hv, h1], by simp [dumpFields, hv, h2]⟩
          · refine Or.inr ⟨(k, escString k ++ ": " ++ s) :: l1,
              (k, escString k ++ ": " ++ s) :: l2, ?_, ?_, hl.cons _⟩
            · simp [dumpFields, hv, h1]
            · simp [dumpFields, hv, h2]
  | swap x y l =>
      obtain ⟨kx, vx⟩ := x
      obtain ⟨ky, vy⟩ := y
      cases hx : dumpVal vx with
      | none =>
          refine Or.inl ⟨?_, ?_⟩ <;> cases hy : dumpVal vy <;> simp [dumpFields, hx, hy]
      | some sx =>
          cases hy : dumpVal vy with
          | none => exact Or.inl ⟨by simp [dumpFields, hx, hy], by simp [dumpFields, hx, hy]⟩
          | some sy =>
              cases hl : dumpFields l with
              | none => exact Or.inl ⟨by simp [dumpFields, hx, hy, hl],
                  by simp [dumpFields, hx, hy, hl]⟩
              | some rest =>
                  refine Or.inr ⟨(ky, escString ky ++ ": " ++ sy) ::
                      (kx, escString kx ++ ": " ++ sx) :: rest,
                    (kx, escString kx ++ ": " ++ sx) ::
                      (ky, escString ky ++ ": " ++ sy) :: rest, ?_, ?_, ?_⟩
                  · simp [dumpFields, hx, hy, hl]
                  · simp [dumpFields, hx, hy, hl]
                  · exact List.Perm.swap _ _ _
  | trans hp1 hp2 ih1 ih2 =>
      rcases ih1 with ⟨a1, a2⟩ | ⟨l1, l2, a1, a2, ap⟩ <;>
        rcases ih2 with ⟨b1, b2⟩ | ⟨m1, m2, b1, b2, bp⟩
      · exact Or.inl ⟨a1, b2⟩
      · rw [a2] at b1; exact absurd b1 (by simp)
      · rw [b1] at a2; exact absurd a2 (by simp)
      · rw [a2] at b1
        have hlm : l2 = m1 := by injection b1
        subst hlm
        exact Or.inr ⟨l1, m2, a1, b2, ap.trans bp⟩

theorem jsonDumps_perm {r1 r2 : Record} (hp : r1.Perm r2) (hnd : (r1.map Prod.fst).Nodup) :
    jsonDumps r1 = jsonDumps r2 := by
  unfold jsonDumps
  rcases dumpFields_perm hp with ⟨h1, h2⟩ | ⟨l1, l2, h1, h2, hl⟩
  · simp [dumpVal, h1, h2]
  · have hnd1 : (l1.map Prod.fst).Nodup := by
      rw [dumpFields_keys h1]; exact hnd
    have hs : keySort l1 = keySort l2 := keySort_congr hl hnd1
    simp [dumpVal, h1, h2, hs]

/-! ### Claim C1: the record id is insertion-order independent -/

/-- C1: two records with identical key/value content whose keys were
inserted in different orders (i.e. permutations of one another, keys
unique as in any Python dict) receive the same id from
`store_experience`, whatever the states they are stored into: the id is
the hash of the key-sorted canonical serialization. -/
theorem store_experience_id_key_order_invariant (r1 r2 : Record) (st1 st2 : EpState)
    (hnd : (keysOf r1).Nodup) (hp : r1.Perm r2) :
    (store_experience st1 r1).1 = (store_experience st2 r2).1 := by
  have hd : jsonDumps r1 = jsonDumps r2 := jsonDumps_perm hp (by simpa [keysOf] using hnd)
  unfold store_experience
  rw [hd]
  cases jsonDumps r2 <;> rfl

/-- C1 witness: the same two-field record inserted in both key orders. -/
theorem store_experience_id_key_order_invariant_witness :
    (keysOf [("b", JValue.num 1), ("a", JValue.str "x")]).Nodup ∧
    (store_experience [] [("b", JValue.num 1), ("a", JValue.str "x")]).1 =
      (store_experience [] [("a", JValue.str "x"), ("b", JValue.num 1)]).1 :=
  ⟨by decide, store_experience_id_key_order_invariant _ _ [] [] (by decide)
    (List.Perm.swap _ _ _)⟩

/-! ### Injectivity of the decimal rendering of ids -/

theorem natDigits_eq_digits : ∀ (fuel n : Nat), n ≤ fuel → natDigits fuel n = Nat.digits 10 n := by
  intro fuel
  induction fuel with
  | zero =>
      intro n hn
      have : n = 0 := Nat.le_zero.mp hn
      subst this
      simp [natDigits]
  | succ f ih =>
      intro n hn
      cases n with
      | zero => simp [natDigits]
      | succ m =>
          rw [natDigits, Nat.digits_def' (by norm_num : (1 : ℕ) < 10) (Nat.succ_pos m),
            ih ((m + 1) / 10) (by omega)]

theorem natStr_eq (n : Nat) :
    natStr n = if n = 0 then "0" else String.mk ((Nat.digits 10 n).reverse.map digitChar) := by
  unfold natStr
  rw [natDigits_eq_digits n n le_rfl]

theorem digitChar_inj_lt : ∀ d1 < 10, ∀ d2 < 10, digitChar d1 = digitChar d2 → d1 = d2 := by
  decide

theorem digitChar_ne_minus : ∀ d < 10, digitChar d ≠ '-' := by decide

theorem map_digitChar_inj : ∀ {l1 l2 : List Nat}, (∀ d ∈ l1, d < 10) → (∀ d ∈ l2, d < 10) →
    l1.map digitChar = l2.map digitChar → l1 = l2 := by
  intro l1
  induction l1 with
  | nil =>
      intro l2 _ _ h
      cases l2 with
      | nil => rfl
      | cons b t2 => simp at h
  | cons a t1 ih =>
      intro l2 h1 h2 h
      cases l2 with
      | nil => simp at h
      | cons b t2 =>
          simp only [List.map_cons, List.cons.injEq] at h
          have hd := digitChar_inj_lt a (h1 a (by simp)) b (h2 b (by simp)) h.1
          rw [hd, ih (fun d hd => h1 d (by simp [hd])) (fun d hd => h2 d (by simp [hd])) h.2]

theorem mk_digits_eq_zero_str {b : Nat}
    (h : String.mk ((Nat.digits 10 b).reverse.map digitChar) = "0") : b = 0 := by
  have hdata : (Nat.digits 10 b).reverse.map digitChar = ['0'] := congrArg String.data h
  have hrev : (Nat.digits 10 b).reverse = [0] := by
    apply map_digitChar_inj
    · intro d hd
      exact Nat.digits_lt_base (by norm_num) (List.mem_reverse.mp hd)
    · intro d hd
      simp only [List.mem_singleton] at hd
      omega
    · simpa [digitChar] using hdata
  have hdig : Nat.digits 10 b = [0] := by
    have := congrArg List.reverse hrev
    simpa using this
  have := Nat.ofDigits_digits 10 b
  rw [hdig] at this
  simpa [Nat.ofDigits] using this.symm

theorem natStr_inj {a b : Nat} (h : natStr a = natStr b) : a = b := by
  rw [natStr_eq, natStr_eq] at h
  by_cases ha : a = 0 <;> by_cases hb : b = 0
  · rw [ha, hb]
  · rw [if_pos ha, if_neg hb] at h
    exact absurd (mk_digits_eq_zero_str h.symm) hb
  · rw [if_neg ha, if_pos hb] at h
    exact absurd (mk_digits_eq_zero_str h) ha
  · rw [if_neg ha, if_neg hb] at h
    have hdata : (Nat.digits 10 a).reverse.map digitChar =
        (Nat.digits 10 b).reverse.map digitChar := congrArg String.data h
    have hrev := map_digitChar_inj
      (fun d hd => Nat.digits_lt_base (by norm_num) (List.mem_reverse.mp hd))
      (fun d hd => Nat.digits_lt_base (by norm_num) (List.mem_reverse.mp hd)) hdata
    have hdig : Nat.digits 10 a = Nat.digits 10 b := by
      have := congrArg List.reverse hrev
      simpa using this
    calc a = Nat.ofDigits 10 (Nat.digits 10 a) := (Nat.ofDigits_digits 10 a).symm
      _ = Nat.ofDigits 10 (Nat.digits 10 b) := by rw [hdig]
      _ = b := Nat.ofDigits_digits 10 b

theorem natStr_head (n : Nat) : ∃ d t, d < 10 ∧ (natStr n).data = digitChar d :: t := by
  rw [natStr_eq]
  by_cases h : n = 0
  · exact ⟨0, [], by norm_num, by simp [h, digitChar]⟩
  · rw [if_neg h]
    have hne : Nat.digits 10 n ≠ [] := Nat.digits_ne_nil_iff_ne_zero.mpr h
    obtain ⟨d, t, hdt⟩ : ∃ d t, (Nat.digits 10 n).reverse = d :: t := by
      cases hr : (Nat.digits 10 n).reverse with
      | nil =>
          exfalso
          apply hne
          have := congrArg List.reverse hr
          simpa using this
      | cons d t => exact ⟨d, t, rfl⟩
    have hd10 : d < 10 := by
      apply Nat.digits_lt_base (by norm_num)
      rw [← List.mem_reverse, hdt]
      simp
    exact ⟨d, t.map digitChar, hd10, by rw [hdt]; simp⟩

theorem intStr_inj : ∀ {x y : Int}, intStr x = intStr y → x = y := by
  intro x y h
  cases x with
  | ofNat m =>
      cases y with
      | ofNat n => exact congrArg Int.ofNat (natStr_inj h)
      | negSucc n =>
          exfalso
          obtain ⟨d, t, hd, hdata⟩ := natStr_head m
          have hdat := congrArg String.data h
          rw [intStr, intStr, String.data_append, hdata] at hdat
          have : digitChar d = '-' := by
            have := congrArg (fun l => l.headD ' ') hdat
            simpa using this
          exact digitChar_ne_minus d hd this
  | negSucc m =>
      cases y with
      | ofNat n =>
          exfalso
          obtain ⟨d, t, hd, hdata⟩ := natStr_head n
          have hdat := congrArg String.data h
          rw [intStr, intStr, String.data_append, hdata] at hdat
          have hic : '-' = digitChar d := by
            have := congrArg (fun l => l.headD ' ') hdat
            simpa using this
          exact digitChar_ne_minus d hd hic.symm
      | negSucc n =>
          have hdat := congrArg String.data h
          rw [intStr, intStr, String.data_append, String.data_append] at hdat
          have htail : (natStr (m + 1)).data = (natStr (n + 1)).data := by
            simpa using hdat
          have hstr : natStr (m + 1) = natStr (n + 1) := by
            cases hm : natStr (m + 1) with
            | mk l1 =>
                cases hn : natStr (n + 1) with
                | mk l2 =>
                    rw [hm, hn] at htail
                    have hl : l1 = l2 := by simpa using htail
                    rw [hl]
          have hmn : m + 1 = n + 1 := natStr_inj hstr
          have : m = n := by omega
          rw [this]

/-! ### The id hash has a 64-bit signed range -/

theorem pyHash_mem_Icc (s : String) :
    pyHash s ∈ Finset.Icc (-(2 ^ 63) : ℤ) (2 ^ 63 - 1) := by
  rw [Finset.mem_Icc]
  unfold pyHash
  by_cases he : s.data = []
  · rw [if_pos he]
    constructor <;> norm_num
  · rw [if_neg he]
    have hlt : pyHashW s < 2 ^ 64 := by
      unfold pyHashW
      exact Nat.mod_lt _ (by norm_num [W64])
  -- fallthrough handled below
    simp only []
    split_ifs <;> constructor <;> omega

/-! ### Claim C2: distinct content does not guarantee distinct ids -/

/-- A family of pairwise distinct single-field records: key `"k"`, value
a string of `n` letters `a`. -/
def aRec (n : Nat) : Record := [("k", JValue.str (String.mk (List.replicate n 'a')))]

/-- The canonical serialization of `aRec n`. -/
def aSer (n : Nat) : String :=
  "\x7b" ++ (escString "k" ++ ": " ++ escString (String.mk (List.replicate n 'a'))) ++ "\x7d"

theorem store_fst_aRec (n : Nat) (st : EpState) :
    (store_experience st (aRec n)).1 = some (intStr (pyHash (aSer n))) := rfl

theorem aRec_inj {n m : Nat} (h : aRec n = aRec m) : n = m := by
  have h2 := congrArg (fun r : Record => match r with
    | (_, JValue.str s) :: _ => s.data.length
    | _ => 0) h
  simpa [aRec] using h2

/-- C2 counterexample (negation of the claim): it is not the case that
any two records with different canonical content always receive
different ids from `store_experience`.  The id is the decimal rendering
of a 64-bit hash, so among `2^64 + 1` pairwise distinct records two must
share an id. -/
theorem store_experience_ids_can_collide :
    ¬ (∀ (r1 r2 : Record) (st1 st2 : EpState) (i1 i2 : String),
        keySort r1 ≠ keySort r2 →
        (store_experience st1 r1).1 = some i1 →
        (store_experience st2 r2).1 = some i2 →
        i1 ≠ i2) := by
  intro hclaim
  have hmaps : ∀ n ∈ Finset.range (2 ^ 64 + 1),
      pyHash (aSer n) ∈ Finset.Icc (-(2 ^ 63) : ℤ) (2 ^ 63 - 1) :=
    fun n _ => pyHash_mem_Icc _
  have hcard : (Finset.Icc (-(2 ^ 63) : ℤ) (2 ^ 63 - 1)).card <
      (Finset.range (2 ^ 64 + 1)).card := by
    rw [Int.card_Icc, Finset.card_range]
    norm_num
  obtain ⟨n, _, m, _, hnm, heq⟩ :=
    Finset.exists_ne_map_eq_of_card_lt_of_maps_to hcard hmaps
  exact hclaim (aRec n) (aRec m) [] [] _ _
    (fun hks => hnm (aRec_inj hks))
    (store_fst_aRec n []) (store_fst_aRec m [])
    (congrArg (fun z => intStr z) heq)

/-- C2 amended: ids of records differing in content are distinct exactly
when the 64-bit hashes of their canonical serializations differ — the
code guarantees no more, since the id is the decimal rendering of that
hash. -/
theorem store_experience_ids_differ_of_hash_ne (r1 r2 : Record) (st1 st2 : EpState)
    (s1 s2 : String)
    (h1 : jsonDumps r1 = some s1) (h2 : jsonDumps r2 = some s2)
    (hh : pyHash s1 ≠ pyHash s2) :
    (store_experience st1 r1).1 ≠ (store_experience st2 r2).1 := by
  unfold store_experience
  rw [h1, h2]
  show some (intStr (pyHash s1)) ≠ some (intStr (pyHash s2))
  intro he
  exact hh (intStr_inj (Option.some.inj he))

/-- C2 amended witness: two concrete one-field records whose hashes
differ, hence whose ids differ. -/
theorem store_experience_ids_differ_of_hash_ne_witness :
    (store_experience [] [("a", JValue.str "0")]).1 ≠
      (store_experience [] [("a", JValue.str "1")]).1 :=
  store_experience_ids_differ_of_hash_ne _ _ [] []
    ((jsonDumps [("a", JValue.str "0")]).get!)
    ((jsonDumps [("a", JValue.str "1")]).get!)
    rfl rfl (by decide)
